import Mathlib

/-!
Verification of `data_processing_functional_connectivity.py` (brain_dynamics).

The numeric pipeline is embedded shallowly over the real numbers:
phase matrices become functions `ℕ → ℕ → ℝ` (area, time), the reused
`dFC` buffer becomes a function `ℕ → ℕ → ℝ` threaded through explicit
loop recursions, file saves become accumulated lists, and exceptions
become `Except` values.  Library calls (`np.argmax`, `np.linalg.eig`,
`scipy.signal.hilbert`, `sklearn` LLE) are modelled by their documented
behaviour where the claims depend on them.
-/

/-- Coherence kernel of the triple loop (lines 115-120 of the source):
`d = |phases[i,t] - phases[z,t]|`; the entry is `cos (2π - d)` when
`d > π` and `cos d` otherwise. -/
noncomputable def dFC_entry (phases : ℕ → ℕ → ℝ) (t i z : ℕ) : ℝ :=
  if |phases i t - phases z t| > Real.pi then
    Real.cos (2 * Real.pi - |phases i t - phases z t|)
  else
    Real.cos |phases i t - phases z t|

/-- One numpy element assignment `dFC[i, z] = v` on the shared buffer. -/
def updateBuf (buf : ℕ → ℕ → ℝ) (i z : ℕ) (v : ℝ) : ℕ → ℕ → ℝ :=
  fun a b => if a = i ∧ b = z then v else buf a b

/-- The inner `for z in range(0, brain_areas)` loop writing row `i` of the
buffer. -/
noncomputable def fillRowGo (phases : ℕ → ℕ → ℝ) (t i : ℕ) :
    (ℕ → ℕ → ℝ) → List ℕ → (ℕ → ℕ → ℝ)
  | buf, [] => buf
  | buf, z :: zs =>
      fillRowGo phases t i (updateBuf buf i z (dFC_entry phases t i z)) zs

/-- The `for i in range(0, brain_areas)` loop running `fillRowGo` on each
row over all columns `range A`. -/
noncomputable def fillMatrixGo (A : ℕ) (phases : ℕ → ℕ → ℝ) (t : ℕ) :
    (ℕ → ℕ → ℝ) → List ℕ → (ℕ → ℕ → ℝ)
  | buf, [] => buf
  | buf, i :: rest =>
      fillMatrixGo A phases t (fillRowGo phases t i buf (List.range A)) rest

/-- State of the shared `dFC` buffer after the full double loop over
areas for one timepoint `t`. -/
noncomputable def fillMatrix (A : ℕ) (phases : ℕ → ℕ → ℝ) (t : ℕ)
    (buf : ℕ → ℕ → ℝ) : ℕ → ℕ → ℝ :=
  fillMatrixGo A phases t buf (List.range A)

theorem fillRowGo_other (phases : ℕ → ℕ → ℝ) (t i : ℕ) :
    ∀ (zs : List ℕ) (buf : ℕ → ℕ → ℝ) (a b : ℕ), a ≠ i →
      fillRowGo phases t i buf zs a b = buf a b := by
  intro zs
  induction zs with
  | nil => intro buf a b _; rfl
  | cons z zs ih =>
      intro buf a b ha
      rw [fillRowGo, ih _ a b ha, updateBuf]
      simp [ha]

theorem fillRowGo_notin (phases : ℕ → ℕ → ℝ) (t i : ℕ) :
    ∀ (zs : List ℕ) (buf : ℕ → ℕ → ℝ) (a b : ℕ), b ∉ zs →
      fillRowGo phases t i buf zs a b = buf a b := by
  intro zs
  induction zs with
  | nil => intro buf a b _; rfl
  | cons z zs ih =>
      intro buf a b hb
      rw [List.mem_cons] at hb
      push_neg at hb
      rw [fillRowGo, ih _ a b hb.2, updateBuf]
      simp [hb.1]

theorem fillRowGo_mem (phases : ℕ → ℕ → ℝ) (t i : ℕ) :
    ∀ (zs : List ℕ) (buf : ℕ → ℕ → ℝ) (z : ℕ), z ∈ zs →
      fillRowGo phases t i buf zs i z = dFC_entry phases t i z := by
  intro zs
  induction zs with
  | nil => intro buf z hz; exact absurd hz (List.not_mem_nil z)
  | cons z0 zs ih =>
      intro buf z hz
      by_cases hmem : z ∈ zs
      · rw [fillRowGo]; exact ih _ z hmem
      · have hz0 : z = z0 := by
          rcases List.mem_cons.mp hz with h | h
          · exact h
          · exact absurd h hmem
        subst hz0
        rw [fillRowGo, fillRowGo_notin phases t i zs _ i z hmem, updateBuf]
        simp

theorem fillMatrixGo_other (A : ℕ) (phases : ℕ → ℕ → ℝ) (t : ℕ) :
    ∀ (rows : List ℕ) (buf : ℕ → ℕ → ℝ) (a b : ℕ), a ∉ rows →
      fillMatrixGo A phases t buf rows a b = buf a b := by
  intro rows
  induction rows with
  | nil => intro buf a b _; rfl
  | cons i rows ih =>
      intro buf a b ha
      rw [List.mem_cons] at ha
      push_neg at ha
      rw [fillMatrixGo, ih _ a b ha.2,
        fillRowGo_other phases t i _ _ a b ha.1]

theorem fillMatrixGo_mem (A : ℕ) (phases : ℕ → ℕ → ℝ) (t : ℕ) :
    ∀ (rows : List ℕ) (buf : ℕ → ℕ → ℝ) (i z : ℕ), i ∈ rows → z < A →
      fillMatrixGo A phases t buf rows i z = dFC_entry phases t i z := by
  intro rows
  induction rows with
  | nil => intro buf i z hi _; exact absurd hi (List.not_mem_nil i)
  | cons i0 rows ih =>
      intro buf i z hi hz
      by_cases hmem : i ∈ rows
      · rw [fillMatrixGo]; exact ih _ i z hmem hz
      · have hi0 : i = i0 := by
          rcases List.mem_cons.mp hi with h | h
          · exact h
          · exact absurd h hmem
        subst hi0
        rw [fillMatrixGo, fillMatrixGo_other A phases t rows _ i z hmem]
        exact fillRowGo_mem phases t i _ _ z (List.mem_range.mpr hz)

/-- Every in-range entry of the buffer after the double loop equals the
kernel value, independently of the incoming buffer contents. -/
theorem fillMatrix_eq (A : ℕ) (phases : ℕ → ℕ → ℝ) (t : ℕ)
    (buf : ℕ → ℕ → ℝ) (i z : ℕ) (hi : i < A) (hz : z < A) :
    fillMatrix A phases t buf i z = dFC_entry phases t i z :=
  fillMatrixGo_mem A phases t _ buf i z (List.mem_range.mpr hi) hz

/-- The `for t in range(0, t_phases)` loop of
`dynamic_functional_connectivity`: fill the shared buffer for timepoint
`t`, then save a snapshot under key `(n, t)`; the buffer is carried to
the next timepoint. -/
noncomputable def dfc_time_loop (A : ℕ) (phases : ℕ → ℕ → ℝ) (n : ℕ) :
    (ℕ → ℕ → ℝ) → List ℕ → ((ℕ → ℕ → ℝ) × List (ℕ × ℕ × (ℕ → ℕ → ℝ)))
  | buf, [] => (buf, [])
  | buf, t :: ts =>
      let b := fillMatrix A phases t buf
      let r := dfc_time_loop A phases n b ts
      (r.1, (n, t, b) :: r.2)

/-- The `for n in range(n_subjects)` loop: per subject, convert to
phases and run the timepoint loop, reusing the one buffer throughout. -/
noncomputable def dfc_subject_loop (A T : ℕ) (phasesOf : ℕ → ℕ → ℕ → ℝ) :
    (ℕ → ℕ → ℝ) → List ℕ → ((ℕ → ℕ → ℝ) × List (ℕ × ℕ × (ℕ → ℕ → ℝ)))
  | buf, [] => (buf, [])
  | buf, n :: ns =>
      let r := dfc_time_loop A (phasesOf n) n buf (List.range T)
      let r2 := dfc_subject_loop A T phasesOf r.1 ns
      (r2.1, r.2 ++ r2.2)

/-- The driver `dynamic_functional_connectivity`: one zero-initialised
`brain_areas × brain_areas` buffer shared across all subjects and
timepoints; returns the final buffer and the list of saved snapshots
`(subject, timepoint, matrix)` in save order. -/
noncomputable def dynamic_functional_connectivity (A T N : ℕ)
    (phasesOf : ℕ → ℕ → ℕ → ℝ) :
    (ℕ → ℕ → ℝ) × List (ℕ × ℕ × (ℕ → ℕ → ℝ)) :=
  dfc_subject_loop A T phasesOf (fun _ _ => 0) (List.range N)

theorem dfc_time_loop_saves (A : ℕ) (phases : ℕ → ℕ → ℝ) (n : ℕ) :
    ∀ (ts : List ℕ) (buf : ℕ → ℕ → ℝ)
      (e : ℕ × ℕ × (ℕ → ℕ → ℝ)), e ∈ (dfc_time_loop A phases n buf ts).2 →
      e.1 = n ∧ ∀ i z, i < A → z < A →
        e.2.2 i z = dFC_entry phases e.2.1 i z := by
  intro ts
  induction ts with
  | nil => intro buf e he; exact absurd he (List.not_mem_nil e)
  | cons t ts ih =>
      intro buf e he
      rw [dfc_time_loop] at he
      rcases List.mem_cons.mp he with h | h
      · subst h
        exact ⟨rfl, fun i z hi hz => fillMatrix_eq A phases t buf i z hi hz⟩
      · exact ih _ e h

theorem dfc_subject_loop_saves (A T : ℕ) (phasesOf : ℕ → ℕ → ℕ → ℝ) :
    ∀ (ns : List ℕ) (buf : ℕ → ℕ → ℝ)
      (e : ℕ × ℕ × (ℕ → ℕ → ℝ)),
      e ∈ (dfc_subject_loop A T phasesOf buf ns).2 →
      ∀ i z, i < A → z < A →
        e.2.2 i z = dFC_entry (phasesOf e.1) e.2.1 i z := by
  intro ns
  induction ns with
  | nil => intro buf e he; exact absurd he (List.not_mem_nil e)
  | cons n ns ih =>
      intro buf e he
      rw [dfc_subject_loop] at he
      rcases List.mem_append.mp he with h | h
      · obtain ⟨hn, hval⟩ := dfc_time_loop_saves A (phasesOf n) n _ _ e h
        intro i z hi hz
        rw [hval i z hi hz, hn]
      · exact ih _ e h

/-- Concrete phase matrix whose two areas hold constant phases 3.0 and
-3.0 (the wrap-around test pair of the specification). -/
noncomputable def phases3 : ℕ → ℕ → ℝ := fun i _ => if i = 0 then 3 else -3

/-- All-zero phase input for each subject. -/
noncomputable def zeroPhases : ℕ → ℕ → ℕ → ℝ := fun _ _ _ => 0

/-- The zero-initialised shared buffer. -/
noncomputable def zeroBuf : ℕ → ℕ → ℝ := fun _ _ => 0

theorem phases3_abs_diff : |phases3 0 0 - phases3 1 0| = 6 := by
  simp only [phases3]
  norm_num

/-- Claim C1 counterexample: at phases 3.0 and -3.0 the computed
coherence entry is exactly `cos 6.0`, because `cos (2π - d) = cos d`
for every real `d`; the claim asserts the value is *not* `cos 6.0`. -/
theorem C1_counterexample_cos6 :
    fillMatrix 2 phases3 0 zeroBuf 0 1 = Real.cos 6 := by
  rw [fillMatrix_eq 2 phases3 0 zeroBuf 0 1 (by norm_num) (by norm_num),
    dFC_entry, phases3_abs_diff,
    if_pos (by linarith [Real.pi_lt_d2] : (6 : ℝ) > Real.pi)]
  exact Real.cos_two_pi_sub 6

/-- Claim C1 (amended): for every phase matrix, timepoint `t` and area
pair `(i, z)` inside the matrix, the coherence entry equals
`cos (2π - d)` when `d = |phases[i,t] - phases[z,t]|` exceeds `π` and
`cos d` otherwise; in particular phases 3.0 and -3.0 give `d = 6 > π`
and the entry `cos (2π - 6)` — which, as a real number, equals
`cos 6.0` (the two formulas coincide, `cos` being even and
2π-periodic). -/
theorem C1_wrapped_cosine_kernel :
    (∀ (A : ℕ) (phases : ℕ → ℕ → ℝ) (t i z : ℕ) (buf : ℕ → ℕ → ℝ),
        i < A → z < A →
        fillMatrix A phases t buf i z =
          if |phases i t - phases z t| > Real.pi then
            Real.cos (2 * Real.pi - |phases i t - phases z t|)
          else Real.cos |phases i t - phases z t|) ∧
    Real.pi < |phases3 0 0 - phases3 1 0| ∧
    fillMatrix 2 phases3 0 zeroBuf 0 1 = Real.cos (2 * Real.pi - 6) := by
  refine ⟨fun A phases t i z buf hi hz => ?_, ?_, ?_⟩
  · rw [fillMatrix_eq A phases t buf i z hi hz, dFC_entry]
  · rw [phases3_abs_diff]; linarith [Real.pi_lt_d2]
  · rw [fillMatrix_eq 2 phases3 0 zeroBuf 0 1 (by norm_num) (by norm_num),
      dFC_entry, phases3_abs_diff,
      if_pos (by linarith [Real.pi_lt_d2] : (6 : ℝ) > Real.pi)]

theorem C1_wrapped_cosine_kernel_witness :
    fillMatrix 2 phases3 0 zeroBuf 1 0 =
      if |phases3 1 0 - phases3 0 0| > Real.pi then
        Real.cos (2 * Real.pi - |phases3 1 0 - phases3 0 0|)
      else Real.cos |phases3 1 0 - phases3 0 0| :=
  C1_wrapped_cosine_kernel.1 2 phases3 0 1 0 zeroBuf (by norm_num) (by norm_num)

/-- Claim C2: for every phase matrix and timepoint, the coherence matrix
produced by the double loop is exactly symmetric on in-range pairs and
its diagonal entries are exactly 1. -/
theorem C2_symmetric_unit_diagonal (A : ℕ) (phases : ℕ → ℕ → ℝ) (t : ℕ)
    (buf : ℕ → ℕ → ℝ) (i z : ℕ) (hi : i < A) (hz : z < A) :
    fillMatrix A phases t buf i z = fillMatrix A phases t buf z i ∧
    fillMatrix A phases t buf i i = 1 := by
  constructor
  · rw [fillMatrix_eq A phases t buf i z hi hz,
      fillMatrix_eq A phases t buf z i hz hi, dFC_entry, dFC_entry,
      abs_sub_comm (phases i t) (phases z t)]
  · rw [fillMatrix_eq A phases t buf i i hi hi, dFC_entry]
    have h0 : |phases i t - phases i t| = 0 := by rw [sub_self, abs_zero]
    rw [h0, if_neg (asymm Real.pi_pos), Real.cos_zero]

theorem C2_symmetric_unit_diagonal_witness :
    fillMatrix 2 phases3 0 zeroBuf 0 1 = fillMatrix 2 phases3 0 zeroBuf 1 0 ∧
    fillMatrix 2 phases3 0 zeroBuf 0 0 = 1 :=
  C2_symmetric_unit_diagonal 2 phases3 0 zeroBuf 0 1 (by norm_num) (by norm_num)

/-- Claim C10: every matrix saved by `dynamic_functional_connectivity`
for key `(n, t)` agrees, on all in-range entries, with the pure
per-timepoint kernel of subject `n`'s phases at timepoint `t` alone —
the reused buffer leaks no state from earlier timepoints or subjects. -/
theorem C10_saves_are_pure (A T N : ℕ) (phasesOf : ℕ → ℕ → ℕ → ℝ)
    (n t : ℕ) (M : ℕ → ℕ → ℝ)
    (hmem : (n, t, M) ∈ (dynamic_functional_connectivity A T N phasesOf).2)
    (i z : ℕ) (hi : i < A) (hz : z < A) :
    M i z = dFC_entry (phasesOf n) t i z :=
  dfc_subject_loop_saves A T phasesOf _ _ (n, t, M) hmem i z hi hz

theorem C10_saves_are_pure_witness :
    fillMatrix 1 (zeroPhases 0) 0 zeroBuf 0 0 = dFC_entry (zeroPhases 0) 0 0 0 :=
  C10_saves_are_pure 1 1 1 zeroPhases 0 0 (fillMatrix 1 (zeroPhases 0) 0 zeroBuf)
    (by
      have h : zeroBuf = (fun _ _ => (0 : ℝ)) := rfl
      rw [h]
      simp [dynamic_functional_connectivity, dfc_subject_loop, dfc_time_loop,
        List.range_succ])
    0 0 (by norm_num) (by norm_num)

/-- Maximum of a list of reals (`np.max` over the eigenvalue array;
0 for the empty list, which the caller never produces). -/
noncomputable def listMax : List ℝ → ℝ
  | [] => 0
  | x :: xs => if xs = [] then x else max x (listMax xs)

/-- Models `np.argmax` on a real array: the index of the first
occurrence of the maximum (numpy scans left to right and keeps the
earlier index on ties). -/
noncomputable def argmax : List ℝ → ℕ
  | [] => 0
  | x :: xs =>
      if xs = [] then 0 else if listMax xs ≤ x then 0 else argmax xs + 1

theorem listMax_cons (x : ℝ) (xs : List ℝ) (h : xs ≠ []) :
    listMax (x :: xs) = max x (listMax xs) := by
  rw [listMax, if_neg h]

theorem le_listMax : ∀ (l : List ℝ) (y : ℝ), y ∈ l → y ≤ listMax l := by
  intro l
  induction l with
  | nil => intro y hy; exact absurd hy (List.not_mem_nil y)
  | cons x xs ih =>
      intro y hy
      by_cases hxs : xs = []
      · subst hxs
        rw [listMax, if_pos rfl]
        rcases List.mem_cons.mp hy with h | h
        · exact le_of_eq h
        · exact absurd h (List.not_mem_nil y)
      · rw [listMax_cons x xs hxs]
        rcases List.mem_cons.mp hy with h | h
        · subst h; exact le_max_left y (listMax xs)
        · exact le_trans (ih y h) (le_max_right x (listMax xs))

theorem argmax_lt_length : ∀ (l : List ℝ), l ≠ [] → argmax l < l.length := by
  intro l
  induction l with
  | nil => intro h; exact absurd rfl h
  | cons x xs ih =>
      intro _
      by_cases hxs : xs = []
      · subst hxs; rw [argmax, if_pos rfl]; simp
      · rw [argmax, if_neg hxs]
        by_cases hle : listMax xs ≤ x
        · rw [if_pos hle]; simp
        · rw [if_neg hle]
          have := ih hxs
          simp only [List.length_cons]
          omega

theorem argmax_getD : ∀ (l : List ℝ), l ≠ [] →
    l.getD (argmax l) 0 = listMax l := by
  intro l
  induction l with
  | nil => intro h; exact absurd rfl h
  | cons x xs ih =>
      intro _
      by_cases hxs : xs = []
      · subst hxs
        rw [argmax, if_pos rfl, listMax, if_pos rfl]
        rfl
      · rw [argmax, if_neg hxs, listMax_cons x xs hxs]
        by_cases hle : listMax xs ≤ x
        · rw [if_pos hle, max_eq_left hle]
          rfl
        · rw [if_neg hle, max_eq_right (le_of_not_le hle),
            List.getD_cons_succ]
          exact ih hxs

theorem argmax_first : ∀ (l : List ℝ) (m : ℕ), m < argmax l →
    l.getD m 0 < listMax l := by
  intro l
  induction l with
  | nil => intro m hm; rw [argmax] at hm; omega
  | cons x xs ih =>
      intro m hm
      by_cases hxs : xs = []
      · subst hxs; rw [argmax, if_pos rfl] at hm; omega
      · rw [argmax, if_neg hxs] at hm
        by_cases hle : listMax xs ≤ x
        · rw [if_pos hle] at hm; omega
        · rw [if_neg hle] at hm
          rw [listMax_cons x xs hxs, max_eq_right (le_of_not_le hle)]
          cases m with
          | zero => rw [List.getD_cons_zero]; exact not_le.mp hle
          | succ m =>
              rw [List.getD_cons_succ]
              exact ih m (Nat.lt_of_succ_lt_succ hm)

/-- Lines 230-231: `linalg.eig` output is modelled abstractly —
`eigen_vals` is the list of (real) eigenvalues in the solver's natural
order, `eigen_vects r c` is entry `(r, c)` of the eigenvector matrix,
column `c` being the eigenvector paired with eigenvalue `c`; the code
selects `eigen_vects[:, eigen_vals.argmax()]`. -/
noncomputable def leading_eig (brain_areas : ℕ) (eigen_vals : List ℝ)
    (eigen_vects : ℕ → ℕ → ℝ) : List ℝ :=
  (List.range brain_areas).map fun r => eigen_vects r (argmax eigen_vals)

/-- Claim C3: the spectral variant outputs the eigenvector column paired
with the algebraically largest eigenvalue, a vector of length
`brain_areas`; on ties the first index in the solver's order wins
(every eigenvalue strictly before the selected one is strictly below
the maximum). -/
theorem C3_leading_eigvector (A : ℕ) (eigen_vals : List ℝ)
    (eigen_vects : ℕ → ℕ → ℝ) (hne : eigen_vals ≠ []) :
    (leading_eig A eigen_vals eigen_vects).length = A ∧
    argmax eigen_vals < eigen_vals.length ∧
    eigen_vals.getD (argmax eigen_vals) 0 = listMax eigen_vals ∧
    (∀ y ∈ eigen_vals, y ≤ listMax eigen_vals) ∧
    (∀ m, m < argmax eigen_vals →
      eigen_vals.getD m 0 < listMax eigen_vals) ∧
    (∀ r, r < A → (leading_eig A eigen_vals eigen_vects).getD r 0 =
      eigen_vects r (argmax eigen_vals)) := by
  refine ⟨?_, argmax_lt_length eigen_vals hne, argmax_getD eigen_vals hne,
    fun y hy => le_listMax eigen_vals y hy,
    fun m hm => argmax_first eigen_vals m hm, fun r hr => ?_⟩
  · rw [leading_eig, List.length_map, List.length_range]
  · rw [leading_eig,
      List.getD_eq_getElem _ _ (by simpa using hr)]
    simp

/-- Demonstration eigenvalue list with a tie for the maximum. -/
noncomputable def demoVals : List ℝ := [1, 3, 3, 2]

/-- Demonstration eigenvector matrix (identity pattern). -/
noncomputable def demoVects : ℕ → ℕ → ℝ := fun r c => if r = c then 1 else 0

theorem C3_leading_eigvector_witness :
    (leading_eig 4 demoVals demoVects).length = 4 ∧
    argmax demoVals < demoVals.length ∧
    demoVals.getD (argmax demoVals) 0 = listMax demoVals ∧
    (∀ y ∈ demoVals, y ≤ listMax demoVals) ∧
    (∀ m, m < argmax demoVals → demoVals.getD m 0 < listMax demoVals) ∧
    (∀ r, r < 4 → (leading_eig 4 demoVals demoVects).getD r 0 =
      demoVects r (argmax demoVals)) :=
  C3_leading_eigvector 4 demoVals demoVects (by simp [demoVals])

/-- Lines 184-185: the stored feature vector is the Python list
concatenation `pca_dict['components'][0] + pca_dict['components'][1]`
of the first two PCA component rows. -/
def pca_feature_vector (components : List (List ℝ)) : List ℝ :=
  components.getD 0 [] ++ components.getD 1 []

/-- Claim C4: for components of length `areas` each, the linear
variant's feature vector is the first component followed by the second,
of length exactly `2 × areas`. -/
theorem C4_pca_concat (A : ℕ) (c0 c1 : List ℝ)
    (h0 : c0.length = A) (h1 : c1.length = A) :
    pca_feature_vector [c0, c1] = c0 ++ c1 ∧
    (pca_feature_vector [c0, c1]).length = 2 * A := by
  have h : pca_feature_vector [c0, c1] = c0 ++ c1 := rfl
  refine ⟨h, ?_⟩
  rw [h, List.length_append, h0, h1]
  omega

theorem C4_pca_concat_witness :
    pca_feature_vector [[(1 : ℝ), 0], [0, 1]] = [(1 : ℝ), 0] ++ [0, 1] ∧
    (pca_feature_vector [[(1 : ℝ), 0], [0, 1]]).length = 2 * 2 :=
  C4_pca_concat 2 [(1 : ℝ), 0] [0, 1] (by simp) (by simp)

/-- Lines 311-312: cosine similarity of two length-`L` feature vectors,
`np.dot(vec_1, vec_2) / (np.linalg.norm(vec_1) * np.linalg.norm(vec_2))`,
with `np.dot` the sum of pointwise products and `np.linalg.norm` the
square root of the sum of squares. -/
noncomputable def cosine_similarity (L : ℕ) (v w : ℕ → ℝ) : ℝ :=
  ((Finset.range L).sum fun i => v i * w i) /
    (Real.sqrt ((Finset.range L).sum fun i => v i * v i) *
      Real.sqrt ((Finset.range L).sum fun i => w i * w i))

/-- FCD tensor of `functional_connectivity_dynamics`: entry `(subject, t1, t2)` of the
FCD tensor is the cosine similarity of the subject's feature vectors at
timepoints `t1` and `t2`. -/
noncomputable def functional_connectivity_dynamics (L : ℕ)
    (reduced_components : ℕ → ℕ → ℕ → ℝ) (subject t1 t2 : ℕ) : ℝ :=
  cosine_similarity L (reduced_components subject t1)
    (reduced_components subject t2)

/-- Claim C5: for every trajectory tensor, subject and timepoint pair,
the FCD matrix is symmetric: entry `(s, t1, t2)` equals entry
`(s, t2, t1)`. -/
theorem C5_fcd_symmetric (L : ℕ) (reduced_components : ℕ → ℕ → ℕ → ℝ)
    (s t1 t2 : ℕ) :
    functional_connectivity_dynamics L reduced_components s t1 t2 =
      functional_connectivity_dynamics L reduced_components s t2 t1 := by
  rw [functional_connectivity_dynamics, functional_connectivity_dynamics,
    cosine_similarity, cosine_similarity]
  rw [Finset.sum_congr rfl
    (fun i _ => mul_comm (reduced_components s t1 i) (reduced_components s t2 i)),
    mul_comm (Real.sqrt _) (Real.sqrt _)]

/-- Claim C6: for every subject and timepoint whose feature vector has
nonzero Euclidean norm, the diagonal FCD entry — the cosine similarity
of the vector with itself — equals 1. -/
theorem C6_fcd_unit_diagonal (L : ℕ) (reduced_components : ℕ → ℕ → ℕ → ℝ)
    (s t : ℕ)
    (h : Real.sqrt ((Finset.range L).sum fun i =>
      reduced_components s t i * reduced_components s t i) ≠ 0) :
    functional_connectivity_dynamics L reduced_components s t t = 1 := by
  rw [functional_connectivity_dynamics, cosine_similarity]
  set S : ℝ := (Finset.range L).sum fun i =>
    reduced_components s t i * reduced_components s t i with hS
  have hnonneg : 0 ≤ S :=
    Finset.sum_nonneg fun i _ => mul_self_nonneg (reduced_components s t i)
  rw [Real.mul_self_sqrt hnonneg]
  have hSne : S ≠ 0 := by
    intro h0
    apply h
    rw [h0, Real.sqrt_zero]
  exact div_self hSne

/-- The worked feature vector `[1, 0, 2, 0]` of the specification. -/
noncomputable def demoReduced : ℕ → ℕ → ℕ → ℝ :=
  fun _ _ i => if i = 0 then 1 else if i = 2 then 2 else 0

theorem C6_fcd_unit_diagonal_witness :
    functional_connectivity_dynamics 4 demoReduced 0 0 0 = 1 :=
  C6_fcd_unit_diagonal 4 demoReduced 0 0 (by
    rw [Real.sqrt_ne_zero']
    simp [demoReduced, Finset.sum_range_succ]
    norm_num)

/-- Observable side effects of `preform_lle_on_dynamic_connectivity`, in
program order: per-subject phase conversion (which also saves the
phases file), the per-timepoint `dFC` save, and a completed LLE
embedding save. -/
inductive BatchEvent where
  | phasesComputed (n : ℕ)
  | dfcSaved (n t : ℕ)
  | lleSaved (n t : ℕ)

/-- Timepoint loop of `preform_lle_on_dynamic_connectivity` (lines
266-284): fill and save the coherence matrix, then call
`manifold.locally_linear_embedding(dFC, n_neighbors=12, n_components=2)`.
sklearn raises `ValueError` when `n_neighbors >= n_samples`
(`n_samples = brain_areas` rows of `dFC`), which aborts the run; the
flag in the result records whether that exception fired. -/
noncomputable def lle_time_loop (A n_neighbors : ℕ) (phases : ℕ → ℕ → ℝ)
    (n : ℕ) : (ℕ → ℕ → ℝ) → List BatchEvent → List ℕ →
      ((ℕ → ℕ → ℝ) × List BatchEvent × Bool)
  | buf, trace, [] => (buf, trace, false)
  | buf, trace, t :: ts =>
      let b := fillMatrix A phases t buf
      let trace2 := trace ++ [BatchEvent.dfcSaved n t]
      if A ≤ n_neighbors then (b, trace2, true)
      else lle_time_loop A n_neighbors phases n b
        (trace2 ++ [BatchEvent.lleSaved n t]) ts

/-- Subject loop of `preform_lle_on_dynamic_connectivity`: convert the
subject to phases, then run the timepoint loop; an exception aborts the
remaining subjects. -/
noncomputable def lle_subject_loop (A T n_neighbors : ℕ)
    (phasesOf : ℕ → ℕ → ℕ → ℝ) : (ℕ → ℕ → ℝ) → List BatchEvent →
      List ℕ → ((ℕ → ℕ → ℝ) × List BatchEvent × Bool)
  | buf, trace, [] => (buf, trace, false)
  | buf, trace, n :: ns =>
      let r := lle_time_loop A n_neighbors (phasesOf n) n buf
        (trace ++ [BatchEvent.phasesComputed n]) (List.range T)
      if r.2.2 then r
      else lle_subject_loop A T n_neighbors phasesOf r.1 r.2.1 ns

/-- The run of `preform_lle_on_dynamic_connectivity` with neighbour count as a
parameter (the source fixes it to 12): returns the final buffer, the
event trace, and whether the sklearn `ValueError` fired. -/
noncomputable def preform_lle_on_dynamic_connectivity (A T N n_neighbors : ℕ)
    (phasesOf : ℕ → ℕ → ℕ → ℝ) :
    (ℕ → ℕ → ℝ) × List BatchEvent × Bool :=
  lle_subject_loop A T n_neighbors phasesOf (fun _ _ => 0) [] (List.range N)

/-- Claim C8 counterexample: with 4 areas, 1 timepoint, 1 subject and
the fixed 12 neighbours, the run does raise (flag `true`), but only
after subject 0's phases were computed and the first coherence matrix
was saved — the batch had already started, contradicting a
configuration check performed before the batch. -/
theorem C8_counterexample_error_mid_batch :
    (preform_lle_on_dynamic_connectivity 4 1 1 12 zeroPhases).2 =
      ([BatchEvent.phasesComputed 0, BatchEvent.dfcSaved 0 0], true) := by
  have h : (List.range 1) = [0] := by simp [List.range_succ]
  rw [preform_lle_on_dynamic_connectivity, h, lle_subject_loop, h,
    lle_time_loop]
  norm_num

/-- Claim C8 (amended): whenever the neighbour count is at least the
number of areas and there is at least one subject and one timepoint,
the sklearn `ValueError` fires at the first attempted embedding
(subject 0, timepoint 0) — during the batch, after subject 0's phases
are computed and the first coherence matrix is saved, and before any
embedding is stored; there is no upfront configuration check. -/
theorem C8_lle_error_at_first_embedding (A T N n_neighbors : ℕ)
    (phasesOf : ℕ → ℕ → ℕ → ℝ) (hA : A ≤ n_neighbors) (hT : 0 < T)
    (hN : 0 < N) :
    (preform_lle_on_dynamic_connectivity A T N n_neighbors phasesOf).2 =
      ([BatchEvent.phasesComputed 0, BatchEvent.dfcSaved 0 0], true) := by
  obtain ⟨T2, rfl⟩ : ∃ T2, T = T2 + 1 := ⟨T - 1, by omega⟩
  obtain ⟨N2, rfl⟩ : ∃ N2, N = N2 + 1 := ⟨N - 1, by omega⟩
  rw [preform_lle_on_dynamic_connectivity, List.range_succ_eq_map,
    lle_subject_loop, List.range_succ_eq_map, lle_time_loop]
  simp only [List.nil_append, if_pos hA]
  simp

theorem C8_lle_error_at_first_embedding_witness :
    (preform_lle_on_dynamic_connectivity 3 2 2 12 demoReduced).2 =
      ([BatchEvent.phasesComputed 0, BatchEvent.dfcSaved 0 0], true) :=
  C8_lle_error_at_first_embedding 3 2 2 12 demoReduced (by norm_num)
    (by norm_num) (by norm_num)

/-- Column `j` of the loaded table, `array[:, j]` (line 54). -/
def column (array : List (List ℝ)) (j : ℕ) : List ℝ :=
  array.map fun row => row.getD j 0

/-- Numpy broadcast assignment of a 1-D vector into the length-`t_phases`
row slice `phases[area, :]`: it succeeds when the lengths agree, a
length-1 vector broadcasts by replication, and any other length raises
`ValueError: could not broadcast input array`. -/
def broadcast_assign (t_phases : ℕ) (v : List ℝ) : Except String (List ℝ) :=
  if v.length = t_phases then Except.ok v
  else if v.length = 1 then Except.ok (List.replicate t_phases v.headI)
  else Except.error "could not broadcast input array"

/-- The `for area in range(0, brain_areas)` loop of `convert_to_phases`
(lines 49-54): `angle_hilbert` stands for the composite
`np.angle(signal.hilbert(...))` applied to one column (it preserves the
column's length); each transformed column is assigned into row `area`
of the preallocated `(brain_areas, t_phases)` matrix. -/
def convert_rows (t_phases : ℕ) (angle_hilbert : List ℝ → List ℝ)
    (array : List (List ℝ)) : List ℕ → Except String (List (List ℝ))
  | [] => Except.ok []
  | j :: js =>
      match broadcast_assign t_phases (angle_hilbert (column array j)) with
      | Except.error e => Except.error e
      | Except.ok row =>
          match convert_rows t_phases angle_hilbert array js with
          | Except.error e => Except.error e
          | Except.ok rows => Except.ok (row :: rows)

/-- Phase extraction `convert_to_phases` on an already-loaded table: the resulting phase
matrix as a list of `brain_areas` rows, or the raised shape error. -/
def convert_to_phases (brain_areas t_phases : ℕ)
    (angle_hilbert : List ℝ → List ℝ) (array : List (List ℝ)) :
    Except String (List (List ℝ)) :=
  convert_rows t_phases angle_hilbert array (List.range brain_areas)

/-- Claim C9 counterexample: a 3×3 table with `brain_areas = 2` and
`t_phases = 2` (more rows and more columns than declared) is not
silently truncated — the first row assignment raises the numpy
broadcast `ValueError`. -/
theorem C9_counterexample_shape_error :
    convert_to_phases 2 2 (fun v => v) [[1, 2, 3], [4, 5, 6], [7, 8, 9]] =
      Except.error "could not broadcast input array" := rfl

theorem convert_rows_ok (t_phases : ℕ) (angle_hilbert : List ℝ → List ℝ)
    (array : List (List ℝ)) :
    ∀ (js : List ℕ),
      (∀ j ∈ js, (angle_hilbert (column array j)).length = t_phases) →
      convert_rows t_phases angle_hilbert array js =
        Except.ok (js.map fun j => angle_hilbert (column array j)) := by
  intro js
  induction js with
  | nil => intro _; rfl
  | cons j js ih =>
      intro h
      rw [convert_rows, broadcast_assign,
        if_pos (h j (List.mem_cons_self j js)),
        ih fun x hx => h x (List.mem_cons_of_mem j hx)]
      rfl

/-- Claim C9 (amended): for any length-preserving phase transform, when
the loaded table has a row count different from `t_phases` (and not 1,
which numpy would broadcast) the phase extractor raises the broadcast
`ValueError` instead of truncating; when the row count equals
`t_phases`, it succeeds and reads only the first `brain_areas` columns,
silently ignoring any extra columns. -/
theorem C9_shape_behaviour (brain_areas t_phases : ℕ)
    (angle_hilbert : List ℝ → List ℝ) (array : List (List ℝ))
    (hpres : ∀ v, (angle_hilbert v).length = v.length) :
    (array.length ≠ t_phases → array.length ≠ 1 → 0 < brain_areas →
      convert_to_phases brain_areas t_phases angle_hilbert array =
        Except.error "could not broadcast input array") ∧
    (array.length = t_phases →
      convert_to_phases brain_areas t_phases angle_hilbert array =
        Except.ok ((List.range brain_areas).map
          fun j => angle_hilbert (column array j))) := by
  have hlen : ∀ j, (angle_hilbert (column array j)).length = array.length := by
    intro j
    rw [hpres, column, List.length_map]
  constructor
  · intro hne hne1 hpos
    obtain ⟨k, rfl⟩ : ∃ k, brain_areas = k + 1 := ⟨brain_areas - 1, by omega⟩
    rw [convert_to_phases, List.range_succ_eq_map, convert_rows,
      broadcast_assign, if_neg (by rw [hlen 0]; exact hne),
      if_neg (by rw [hlen 0]; exact hne1)]
  · intro heq
    rw [convert_to_phases]
    exact convert_rows_ok t_phases angle_hilbert array (List.range brain_areas)
      fun j _ => by rw [hlen j, heq]

theorem C9_shape_behaviour_witness :
    convert_to_phases 1 2 (fun v => v) [[5, 7], [6, 8]] =
      Except.ok ((List.range 1).map
        fun j => (fun v => v) (column [[5, 7], [6, 8]] j)) :=
  (C9_shape_behaviour 1 2 (fun v => v) [[5, 7], [6, 8]] fun _ => rfl).2 rfl

/-- IEEE-754 result of dividing two finite float64 values, as numpy
computes it at line 311: a finite quotient, a signed infinity for
`x / 0` with `x ≠ 0`, or the NaN marker for `0 / 0`. -/
inductive FloatDiv where
  | num (x : ℝ)
  | posInf
  | negInf
  | nan

/-- Documented numpy/IEEE division on finite operands: `0/0` is NaN,
`x/0` with `x ≠ 0` is a signed infinity, and otherwise the quotient is
the real quotient (the sign of an IEEE zero is not representable here;
only the finite and degenerate cases matter to the claims). -/
noncomputable def ieee_div (x y : ℝ) : FloatDiv :=
  if y = 0 then
    if x = 0 then FloatDiv.nan
    else if 0 < x then FloatDiv.posInf else FloatDiv.negInf
  else FloatDiv.num (x / y)

/-- Lines 311-312 with the degenerate division made observable: the
cosine-similarity expression evaluated under IEEE division. -/
noncomputable def cosine_similarity_ieee (L : ℕ) (v w : ℕ → ℝ) : FloatDiv :=
  ieee_div ((Finset.range L).sum fun i => v i * w i)
    (Real.sqrt ((Finset.range L).sum fun i => v i * v i) *
      Real.sqrt ((Finset.range L).sum fun i => w i * w i))

/-- FCD entry under IEEE division. -/
noncomputable def functional_connectivity_dynamics_ieee (L : ℕ)
    (reduced_components : ℕ → ℕ → ℕ → ℝ) (subject t1 t2 : ℕ) : FloatDiv :=
  cosine_similarity_ieee L (reduced_components subject t1)
    (reduced_components subject t2)

theorem ieee_div_num (x y : ℝ) (hy : y ≠ 0) :
    ieee_div x y = FloatDiv.num (x / y) := by
  rw [ieee_div, if_neg hy]

/-- Off the degenerate case the IEEE model refines the real-valued one:
a nonzero denominator yields the finite quotient `cosine_similarity`
computes. -/
theorem cosine_similarity_ieee_num (L : ℕ) (v w : ℕ → ℝ)
    (h : Real.sqrt ((Finset.range L).sum fun i => v i * v i) *
      Real.sqrt ((Finset.range L).sum fun i => w i * w i) ≠ 0) :
    cosine_similarity_ieee L v w = FloatDiv.num (cosine_similarity L v w) := by
  rw [cosine_similarity_ieee, cosine_similarity, ieee_div_num _ _ h]

/-- A vector whose Euclidean norm is zero is the zero vector on the
summed range. -/
theorem zero_norm_entries {L : ℕ} {v : ℕ → ℝ}
    (h : Real.sqrt ((Finset.range L).sum fun i => v i * v i) = 0) :
    ∀ i ∈ Finset.range L, v i = 0 := by
  have hnn : ∀ i ∈ Finset.range L, 0 ≤ v i * v i :=
    fun i _ => mul_self_nonneg (v i)
  have hle : ((Finset.range L).sum fun i => v i * v i) ≤ 0 :=
    Real.sqrt_eq_zero'.mp h
  have h0 : ((Finset.range L).sum fun i => v i * v i) = 0 :=
    le_antisymm hle (Finset.sum_nonneg hnn)
  intro i hi
  exact mul_self_eq_zero.mp ((Finset.sum_eq_zero_iff_of_nonneg hnn).mp h0 i hi)

/-- Claim C7: if either feature vector being compared has zero Euclidean
norm, that vector is the zero vector, so numerator and denominator of
the similarity are exactly 0 and the IEEE division produces the NaN
marker — a value distinct from every finite result, in particular never
the number 0. -/
theorem C7_zero_norm_signals_nan (L : ℕ)
    (reduced_components : ℕ → ℕ → ℕ → ℝ) (s t1 t2 : ℕ)
    (h : Real.sqrt ((Finset.range L).sum fun i =>
           reduced_components s t1 i * reduced_components s t1 i) = 0 ∨
         Real.sqrt ((Finset.range L).sum fun i =>
           reduced_components s t2 i * reduced_components s t2 i) = 0) :
    functional_connectivity_dynamics_ieee L reduced_components s t1 t2 =
      FloatDiv.nan ∧ ∀ x : ℝ, FloatDiv.nan ≠ FloatDiv.num x := by
  constructor
  · rw [functional_connectivity_dynamics_ieee, cosine_similarity_ieee]
    rcases h with h1 | h2
    · have hnum : ((Finset.range L).sum fun i =>
          reduced_components s t1 i * reduced_components s t2 i) = 0 :=
        Finset.sum_eq_zero fun i hi => by
          rw [zero_norm_entries h1 i hi, zero_mul]
      rw [hnum, h1, zero_mul, ieee_div, if_pos rfl, if_pos rfl]
    · have hnum : ((Finset.range L).sum fun i =>
          reduced_components s t1 i * reduced_components s t2 i) = 0 :=
        Finset.sum_eq_zero fun i hi => by
          rw [zero_norm_entries h2 i hi, mul_zero]
      rw [hnum, h2, mul_zero, ieee_div, if_pos rfl, if_pos rfl]
  · exact fun x hx => FloatDiv.noConfusion hx

/-- Trajectory holding the zero feature vector at timepoint 0 and a
nonzero one at timepoint 1. -/
noncomputable def demoZeroReduced : ℕ → ℕ → ℕ → ℝ :=
  fun _ t i => if t = 0 then 0 else if i = 0 then 1 else 0

theorem C7_zero_norm_signals_nan_witness :
    functional_connectivity_dynamics_ieee 2 demoZeroReduced 0 0 1 =
      FloatDiv.nan ∧ ∀ x : ℝ, FloatDiv.nan ≠ FloatDiv.num x :=
  C7_zero_norm_signals_nan 2 demoZeroReduced 0 0 1
    (Or.inl (by simp [demoZeroReduced, Finset.sum_range_succ]))
